import Mathlib

/-!
A shallow embedding in Lean 4 of the core data structures and operations of
the MadFS (formerly uLayFS) repository, together with theorems settling the
specification claims about them.

Conventions of the embedding:
* machine integers (`uint32_t`, `uint64_t`, `size_t`) are modelled as `Nat`,
  with an explicit `% 2 ^ w` at the operations where wrap-around can occur;
* fallible operations (C++ `throw`, failed CAS loops, `assert`) are modelled
  with `Except` / `Option`;
* persistent-memory blocks are modelled as functions from offsets to byte
  values; the per-file disk is a function from logical block index and byte
  offset to a byte.

Sources embedded: `src/tools/from_ulayfs.cpp` (layout: `Bitmap`, `TxLogBlock`,
`MetaBlock` constants; `dram::File::overwrite` / `pread` / `write_data` /
`get_data_block_ptr`), `src/src/alloc.cpp` (`Allocator::alloc` / `free`),
`src/unnamed/part_000` (`MemTable::init`), and the `write` / `read` shim from
the `lib.cpp` fragment in `src/src/btable.cpp`.
-/

namespace MadFS

/-! ### Layout constants (src/tools/from_ulayfs.cpp, layout.h fragment) -/

/-- `BLOCK_SIZE = 4096`. -/
def BLOCK_SIZE : Nat := 4096

/-- `BLOCK_SHIFT`: `BLOCK_SIZE = 1 <<< BLOCK_SHIFT`. -/
def BLOCK_SHIFT : Nat := 12

/-- `sizeof(BlockIdx) = 4` (`BlockIdx` is `uint32_t`). -/
def SIZEOF_BLOCK_IDX : Nat := 4

/-- `sizeof(TxEntry) = 8` (asserted by `static_assert` in the source). -/
def SIZEOF_TX_ENTRY : Nat := 8

/-- `sizeof(LogEntry) = 16` (asserted by `static_assert` in the source). -/
def SIZEOF_LOG_ENTRY : Nat := 16

/-- `NUM_TX_ENTRY = (BLOCK_SIZE - 2 * sizeof(BlockIdx)) / sizeof(TxEntry)`:
the number of `TxEntry` slots of a `TxLogBlock` (511). -/
def NUM_TX_ENTRY : Nat := (BLOCK_SIZE - 2 * SIZEOF_BLOCK_IDX) / SIZEOF_TX_ENTRY

/-- `NUM_LOG_ENTRY = BLOCK_SIZE / sizeof(LogEntry)` (256). -/
def NUM_LOG_ENTRY : Nat := BLOCK_SIZE / SIZEOF_LOG_ENTRY

/-- `Bitmap::BITMAP_ALL_USED = 0xffffffffffffffff`. -/
def BITMAP_ALL_USED : Nat := 2 ^ 64 - 1

/-! ### `pmem::Bitmap` (src/tools/from_ulayfs.cpp) -/

/-- `std::countr_zero` on a `uint64_t`: the number of consecutive zero bits
starting from the least significant bit; 64 when the word is zero. -/
def countrZero64 (b : Nat) : Nat :=
  ((List.range 64).find? fun i => b / 2 ^ i % 2 = 1).getD 64

/-- 64-bit bitwise complement `~b`. -/
def not64 (b : Nat) : Nat := (2 ^ 64 - 1) - b % 2 ^ 64

/-- `Bitmap::alloc_one`, executed without interference so that the
compare-and-swap succeeds on the first attempt.  Takes the current value of
the 64-bit word `bitmap` and returns the pair (return value, new value of the
word).  Mirrors the source:
`b = load(bitmap); if (b == BITMAP_ALL_USED) return -1;`
`allocated = (~b) & (b + 1); CAS(bitmap, b, b & allocated);`
`return std::countr_zero(b);`. -/
def allocOne (b : Nat) : Int × Nat :=
  if b = BITMAP_ALL_USED then (-1, b)
  else
    let allocated := not64 b &&& ((b + 1) % 2 ^ 64)
    (Int.ofNat (countrZero64 b), b &&& allocated)

/-- `Bitmap::set_allocated(idx)` is `bitmap |= (1 << idx)`, where the literal
`1` has type `int` (32 bits).  For `idx < 31` the shift yields `2 ^ idx`; for
`idx = 31` the shifted value is the 32-bit `int` with (C++20 semantics) value
`-2 ^ 31`, which sign-extends to `2 ^ 64 - 2 ^ 31` when converted to the
64-bit word for the `|=`; for `idx ≥ 32` the shift is undefined behaviour, so
the model is only meaningful for `idx ≤ 31`. -/
def intOneShlAsUint64 (idx : Nat) : Nat :=
  if idx < 31 then 2 ^ idx else 2 ^ 64 - 2 ^ 31

/-- `Bitmap::set_allocated(idx)`: new value of the word `bitmap`. -/
def set_allocated (b : Nat) (idx : Nat) : Nat :=
  b ||| intOneShlAsUint64 idx

/-! ### `pmem::TxLogBlock::try_commit` (src/tools/from_ulayfs.cpp) -/

/-- The scan loop of `try_commit`, executed without interference (the CAS on a
zero slot succeeds).  `entries` maps a slot index to the 64-bit word stored in
`tx_entries[idx].entry`; `fuel` is the number of slots left to scan, so the
loop runs for `idx = hint_tail, ..., hint_tail + fuel - 1`. -/
def tryCommitGo (entries : Nat → Nat) (commit : Nat) :
    Nat → Nat → Int × (Nat → Nat)
  | _, 0 => (-1, entries)
  | idx, fuel + 1 =>
    if entries idx ≠ 0 then tryCommitGo entries commit (idx + 1) fuel
    else (Int.ofNat idx, fun i => if i = idx then commit else entries i)

/-- `TxLogBlock::try_commit(commit_entry, hint_tail)`: scans
`for (idx = hint_tail; idx < NUM_LOG_ENTRY; ++idx)` for a zero slot, CASes it
to `commit_entry.entry` and returns its index, `-1` when the scan ends.
Note that the loop bound in the source is `NUM_LOG_ENTRY`, not the size
`NUM_TX_ENTRY` of the `tx_entries` array. -/
def try_commit (entries : Nat → Nat) (commit : Nat) (hint_tail : Nat) :
    Int × (Nat → Nat) :=
  tryCommitGo entries commit hint_tail (NUM_LOG_ENTRY - hint_tail)

/-! ### The `write` / `read` shim (lib.cpp fragment in src/src/btable.cpp) -/

/-- The call a public entry point of the shim dispatches to. -/
inductive IOCall where
  | posixWrite (fd : Nat) (count : Nat)
  | posixRead (fd : Nat) (count : Nat)
  | txDoWrite (fd : Nat) (count : Nat)
  | txDoRead (fd : Nat) (count : Nat)
deriving DecidableEq

/-- The shim `ssize_t write(int fd, const void *buf, size_t count)`: apart
from a debug `printf`, its body is `return posix::write(fd, buf, count);`. -/
def libWrite (fd count : Nat) : IOCall := IOCall.posixWrite fd count

/-- The shim `ssize_t read(int fd, void *buf, size_t count)`: apart from a
debug `printf`, its body is `return posix::read(fd, buf, count);`. -/
def libRead (fd count : Nat) : IOCall := IOCall.posixRead fd count

/-! ### Event trace of `dram::File::overwrite` (src/tools/from_ulayfs.cpp) -/

/-- The observable steps of one `File::overwrite` call, in program order. -/
inductive Ev where
  | beginTx
  | allocBlocks
  | copyHead
  | copyPayload
  | persistFence
  | writeLogEntry
  | commitTx
  | blkTableUpdate
deriving DecidableEq

/-- The straight-line trace of `File::overwrite`: `tx_mgr.begin_tx`,
`allocator.alloc`, then `write_data` (head copy when `local_offset ≠ 0`,
`memcpy` of the payload, `pmem::persist_fenced`), then
`tx_mgr.write_log_entry`, `tx_mgr.commit_tx`, `blk_table.update`. -/
def overwriteTrace (localOffset : Nat) : List Ev :=
  [Ev.beginTx, Ev.allocBlocks] ++
    (if localOffset ≠ 0 then [Ev.copyHead] else []) ++
    [Ev.copyPayload, Ev.persistFence, Ev.writeLogEntry, Ev.commitTx,
      Ev.blkTableUpdate]

/-! ### `dram::MemTable::init` (src/unnamed/part_000) -/

/-- Modelled from the spec: the structure `LayoutParams` lives in `config.h`,
which is not among the sources; §6 of the spec lists `grow_unit_size` (file
growth chunk) and `prealloc_size` (initial file size) as configuration
values.  The source uses `grow_unit_shift` with
`grow_unit_size = 2 ^ grow_unit_shift`. -/
structure LayoutParams where
  grow_unit_shift : Nat
  prealloc_size : Nat

/-- `MemTable::init(fd, file_size)`, restricted to its size-validation and
growth logic (the `mmap` and table-population steps act on the host
environment and return no further data).  The result is
`(ftruncate target if one was issued, file size that is mapped)`;
a thrown `std::runtime_error` is an `Except.error` with its message.
`IS_ALIGNED(x, a)` (from the absent utils.h) is divisibility, the only
reading under which the subsequent arithmetic of the source is coherent. -/
def MemTable.init (p : LayoutParams) (file_size : Nat) :
    Except String (Option Nat × Nat) :=
  if ¬ file_size % BLOCK_SIZE = 0 then
    Except.error "Invalid layout: non-block-aligned file size!"
  else if file_size = 0 ∨ ¬ file_size % 2 ^ p.grow_unit_shift = 0 then
    let fs := if file_size = 0 then p.prealloc_size
      else (file_size >>> p.grow_unit_shift + 1) <<< p.grow_unit_shift
    Except.ok (some fs, fs)
  else Except.ok (none, file_size)

/-! ### `dram::File` data path (src/tools/from_ulayfs.cpp)

`File::overwrite` and `File::pread` use the `BlkTable` and `Allocator` of the
early tree, whose headers (`btable.h`, `alloc.h`) are not among the sources.
Those two collaborators are modelled from the spec:
* `BlkTable` — "a sequence `table[VirtualBlockIdx] → LogicalBlockIdx`"
  updated by replaying committed transactions, entry `0` meaning "not covered
  by any committed transaction"; `File::overwrite` commits one transaction
  per call and then calls `blk_table.update()`, so the table maps the
  written virtual range to the freshly allocated shadow blocks;
* `Allocator::alloc(n)` — returns the start of `n` fresh logical blocks
  claimed from the persistent bitmap; the model hands out consecutive
  indices from a cursor that starts at `1` (block 0 is the meta block) and
  fresh blocks read as zero bytes (the backing file is `ftruncate`-extended).
The data path itself (`write_data`, `pread`, `get_data_block_ptr`) is
translated from the source. -/

/-- The volatile-plus-persistent state a `File`'s data path touches. -/
structure FileState where
  /-- byte `o` of logical block `l` of the backing file -/
  disk : Nat → Nat → Nat
  /-- `BlkTable::get`: virtual block index → logical block index, 0 = none -/
  btable : Nat → Nat
  /-- first never-allocated logical block index (allocator cursor) -/
  nextFree : Nat

/-- A freshly initialised file: no committed transactions, all data blocks
zero (the content of the meta block, block 0, is never read by the embedded
operations, `get_data_block_ptr` refusing logical index 0). -/
def initFileState : FileState :=
  { disk := fun _ _ => 0, btable := fun _ => 0, nextFree := 1 }

/-- `File::overwrite(buf, count, offset)`.  `start_virtual_idx` is the block
number containing `offset` and `local_offset = offset % BLOCK_SIZE` (the
source computes them with the `ALIGN_DOWN` macro from the absent utils.h;
this is the only reading under which `local_offset ∈ [0, BLOCK_SIZE)`).
`write_data` writes the consecutive shadow blocks (contiguous in the mmap):
first the head copy of `local_offset` bytes from the currently mapped block,
then the payload; bytes of the shadow blocks past the payload keep their
fresh content.  Commit plus `blk_table.update()` then maps the written
virtual range to the shadow blocks.  Returns the new state and `count`. -/
def File.overwrite (st : FileState) (buf : List Nat) (offset : Nat) :
    FileState × Nat :=
  let count := buf.length
  let startV := offset / BLOCK_SIZE
  let localOffset := offset % BLOCK_SIZE
  let numBlocks := (count + localOffset + BLOCK_SIZE - 1) / BLOCK_SIZE
  let startL := st.nextFree
  let srcL := st.btable startV
  let disk' : Nat → Nat → Nat := fun l o =>
    if startL ≤ l ∧ l < startL + numBlocks then
      let p := (l - startL) * BLOCK_SIZE + o
      if p < localOffset then st.disk srcL o
      else if p < localOffset + count then buf.getD (p - localOffset) 0
      else st.disk l o
    else st.disk l o
  let btable' : Nat → Nat := fun v =>
    if startV ≤ v ∧ v < startV + numBlocks then startL + (v - startV)
    else st.btable v
  ({ disk := disk', btable := btable', nextFree := startL + numBlocks }, count)

/-- One iteration body of `File::pread`: `get_data_block_ptr` asserts that
the mapping is non-zero (modelled as `none`), then `memcpy`s `numBytes` bytes
starting at `srcOff` within the block. -/
def preadBlock (st : FileState) (v srcOff numBytes : Nat) :
    Option (List Nat) :=
  let lidx := st.btable v
  if lidx = 0 then none
  else some ((List.range numBytes).map fun k => st.disk lidx (srcOff + k))

/-- The `for (i = 0; i < num_blocks; ++i)` loop of `File::pread`, processing
blocks `i, …, i + fuel - 1`. -/
def preadGo (st : FileState) (startV localOffset numBlocks lastRemaining : Nat) :
    Nat → Nat → Option (List Nat)
  | _, 0 => some []
  | i, fuel + 1 =>
    let numBytes := BLOCK_SIZE - (if i = 0 then localOffset else 0) -
      (if i = numBlocks - 1 then lastRemaining else 0)
    let srcOff := if i = 0 then localOffset else 0
    match preadBlock st (startV + i) srcOff numBytes with
    | none => none
    | some bs =>
      (preadGo st startV localOffset numBlocks lastRemaining (i + 1) fuel).map
        (bs ++ ·)

/-- `File::pread(buf, count, offset)`: the bytes copied into `buf`, or `none`
when the assertion `logical_block_idx != 0` of `get_data_block_ptr` fails. -/
def File.pread (st : FileState) (count offset : Nat) : Option (List Nat) :=
  let startV := offset / BLOCK_SIZE
  let localOffset := offset % BLOCK_SIZE
  let numBlocks := (count + localOffset + BLOCK_SIZE - 1) / BLOCK_SIZE
  let lastRemaining := numBlocks * BLOCK_SIZE - count - localOffset
  preadGo st startV localOffset numBlocks lastRemaining 0 numBlocks

/-- Run a sequence of `overwrite` operations (each `(buf, offset)`) from the
fresh file state; each call commits one transaction. -/
def runOps (ops : List (List Nat × Nat)) : FileState :=
  ops.foldl (fun st op => (File.overwrite st op.1 op.2).1) initFileState

/-- The virtual block range `[start, start + len)` covered by the committed
transaction of `overwrite (buf, offset)`. -/
def opRange (op : List Nat × Nat) : Nat × Nat :=
  (op.2 / BLOCK_SIZE,
    (op.1.length + op.2 % BLOCK_SIZE + BLOCK_SIZE - 1) / BLOCK_SIZE)

/-- Virtual block `v` is covered by some committed transaction of `ops`. -/
def covered (ops : List (List Nat × Nat)) (v : Nat) : Prop :=
  ∃ op ∈ ops, (opRange op).1 ≤ v ∧ v < (opRange op).1 + (opRange op).2

/-- The tx-entry array used as C3's failing input: slots `0, ..., 255`
occupied, all later slots (in particular slot 256) free. -/
def c3Entries : Nat → Nat := fun i => if i < 256 then 1 else 0

/-- First write of C1's failing input: two bytes `7, 7` at offset 200. -/
def c1Write1 : FileState × Nat := File.overwrite initFileState [7, 7] 200

/-- Second write of C1's failing input: one byte `9` at offset 0; its byte
range `[0, 1)` does not overlap the first write's `[200, 202)`. -/
def c1Write2 : FileState × Nat := File.overwrite c1Write1.1 [9] 0

/-! ### `dram::Allocator` (src/src/alloc.cpp)

`Allocator::alloc` and the two `Allocator::free` overloads are translated
from src/src/alloc.cpp.  The free list is a `std::vector` of
`std::pair<uint32_t, LogicalBlockIdx>` (count, start), kept sorted in the
lexicographic order of `std::pair`; `std::sort` is modelled by
`List.insertionSort` (any sorting of the same multiset under this total
order yields the same list) and `std::lower_bound` on a sorted vector by a
linear scan for the first element not less than the key. -/

/-- Modelled from the spec (alloc.h is absent from the sources): §3 of the
spec — a bitmap word is a "64-bit allocation unit covering 64 logical
blocks" — makes `BITMAP_CAPACITY = 64`. -/
def BITMAP_CAPACITY : Nat := 64

/-- A free-list element: `(count, start_lidx)`. -/
abbrev FreeEnt := Nat × Nat

/-- The `operator<=` of `std::pair` on free-list elements: lexicographic. -/
def entLe (a b : FreeEnt) : Prop := a.1 < b.1 ∨ (a.1 = b.1 ∧ a.2 ≤ b.2)

instance : DecidableRel entLe := fun a b => by
  unfold entLe
  infer_instance

instance : IsTotal FreeEnt entLe :=
  ⟨by
    intro a b
    unfold entLe
    omega⟩

instance : IsTrans FreeEnt entLe :=
  ⟨by
    intro a b c
    unfold entLe
    omega⟩

instance : IsRefl FreeEnt entLe :=
  ⟨by
    intro a
    unfold entLe
    omega⟩

instance : IsAntisymm FreeEnt entLe :=
  ⟨by
    rintro ⟨a1, a2⟩ ⟨b1, b2⟩ h1 h2
    unfold entLe at h1 h2
    simp only [Prod.mk.injEq]
    omega⟩

/-- `std::lower_bound(free_list.begin(), free_list.end(), key)` on a sorted
vector: the index of the first element not less than `key` (the length when
every element is less). -/
def lowerBoundIdx (key : FreeEnt) : List FreeEnt → Nat
  | [] => 0
  | e :: rest => if entLe key e then 0 else lowerBoundIdx key rest + 1

/-- Modelled from the spec: `Bitmap::alloc_batch(bitmap, NUM_BITMAP, hint)`
of the volatile bitmap (alloc.h / bitmap implementation absent from the
sources).  Per §4.2 of the spec the batch allocator, scanning from the
(block-granular) hint, "atomically claims a full 64-block run and returns
its first lidx": the first word at or after the hint whose 64 bits are all
free (`0`) transitions to all-ones; the result is the first block index of
that word's run.  `none` when no word from the hint on is free. -/
def alloc_batch (bm : List Nat) (hint : Nat) : Option (Nat × List Nat) :=
  match (List.range bm.length).find? fun w =>
      decide ((hint + 63) / 64 ≤ w) && (bm.getD w BITMAP_ALL_USED == 0) with
  | none => none
  | some w => some (64 * w, bm.set w BITMAP_ALL_USED)

/-- The volatile state of one per-thread `Allocator` (the log-entry fields
play no role in `alloc`/`free`). -/
structure AllocState where
  /-- `free_list`: `(count, start_lidx)` pairs -/
  free_list : List FreeEnt
  /-- the words of the persistent bitmap -/
  bitmap : List Nat
  /-- `recent_bitmap_idx` -/
  recent_bitmap_idx : Nat

/-- The global-bitmap path of `Allocator::alloc`: batch-allocate a 64-block
run, push the remainder (when `num_blocks < BITMAP_CAPACITY`) and sort,
advance `recent_bitmap_idx`.  `none` models the failed
`assert(recent_bitmap_idx >= 0)`. -/
def allocFromBitmap (st : AllocState) (n : Nat) : Option (Nat × AllocState) :=
  match alloc_batch st.bitmap st.recent_bitmap_idx with
  | none => none
  | some (lidx, bm') =>
    let fl' := if n < BITMAP_CAPACITY then
        List.insertionSort entLe
          (st.free_list ++ [(BITMAP_CAPACITY - n, (lidx + n) % 2 ^ 32)])
      else st.free_list
    some (lidx, { free_list := fl', bitmap := bm',
                  recent_bitmap_idx := lidx + 1 })

/-- The free list produced by the shrink-and-resort step of `alloc`: the
element at `pos` replaced in place by `e'`, then the prefix `[begin, it + 1)`
re-sorted (`std::sort(free_list.begin(), it + 1)`); the suffix is
untouched. -/
def shrinkResult (l : List FreeEnt) (pos : Nat) (e' : FreeEnt) :
    List FreeEnt :=
  List.insertionSort entLe ((l.set pos e').take (pos + 1)) ++
    (l.set pos e').drop (pos + 1)

/-- `Allocator::alloc(num_blocks)`: first the free list via `lower_bound`
(equal count: erase the element; larger count: shrink it in place —
`it->first -= num_blocks; it->second += num_blocks` — and re-sort the prefix
`[begin, it + 1)`), else the global bitmaps.  The returned index is captured
before the in-place modification.  Arithmetic on `start_lidx` is `uint32_t`
arithmetic. -/
def Allocator.alloc (st : AllocState) (n : Nat) : Option (Nat × AllocState) :=
  let pos := lowerBoundIdx (n, 0) st.free_list
  if h : pos < st.free_list.length then
    let e := st.free_list.get ⟨pos, h⟩
    if e.1 = n then
      some (e.2, { st with free_list := st.free_list.eraseIdx pos })
    else if n < e.1 then
      let fl'' := shrinkResult st.free_list pos (e.1 - n, (e.2 + n) % 2 ^ 32)
      some (e.2, { st with free_list := fl'' })
    else allocFromBitmap st n
  else allocFromBitmap st n

/-- `Allocator::free(block_idx, num_blocks)`: push `(num_blocks, block_idx)`
and sort; index 0 is ignored. -/
def Allocator.free (st : AllocState) (block_idx n : Nat) : AllocState :=
  if block_idx = 0 then st
  else { st with free_list :=
    List.insertionSort entLe (st.free_list ++ [(n, block_idx)]) }

/-- The grouping loop of `Allocator::free(recycle_image[], image_size)`:
`curr` is the loop index, `gb`/`gbl` are `group_begin`/`group_begin_lidx`,
`acc` the entries emplaced so far; after the loop the open group, if any, is
emplaced with count `image_size - group_begin`. -/
def freeImageGo : List Nat → Nat → Nat → Nat → List FreeEnt → List FreeEnt
  | [], curr, gb, gbl, acc =>
    if gbl ≠ 0 then acc ++ [(curr - gb, gbl)] else acc
  | x :: rest, curr, gb, gbl, acc =>
    if gbl = 0 then
      if x = 0 then freeImageGo rest (curr + 1) gb gbl acc
      else freeImageGo rest (curr + 1) curr x acc
    else if x = gbl + (curr - gb) then freeImageGo rest (curr + 1) gb gbl acc
    else
      let acc' := acc ++ [(curr - gb, gbl)]
      if x ≠ 0 then freeImageGo rest (curr + 1) curr x acc'
      else freeImageGo rest (curr + 1) gb 0 acc'

/-- `Allocator::free(recycle_image[], image_size)`: group maximal runs of
consecutive non-zero logical indices, emplace one entry per group, then sort
the whole free list once. -/
def Allocator.freeImage (st : AllocState) (image : List Nat) : AllocState :=
  if image.length = 0 then st
  else { st with free_list :=
    List.insertionSort entLe (st.free_list ++ freeImageGo image 0 0 0 []) }

/-- C5's counterexample state: empty free list, word 0 of the bitmap fully
used, word 1 free. -/
def c5State : AllocState :=
  { free_list := [], bitmap := [BITMAP_ALL_USED, 0], recent_bitmap_idx := 0 }

/-- A sorted two-entry free list used to witness the allocator theorems. -/
def c9State : AllocState :=
  { free_list := [(2, 5), (9, 20)], bitmap := [0], recent_bitmap_idx := 0 }

end MadFS

namespace MadFS

/-! ### Theorems for claims C2, C3, C4, C8, C10 -/

/-- C4: `Bitmap::alloc_one` on the word `b = 0` (nothing allocated).  The
claim says the word becomes `1` (lowest free bit marked used) and the index
`0` of that bit is returned; the code instead leaves the word `0` (it stores
`b & allocated`, which clears the allocated bit instead of setting it) and
returns `countr_zero(0) = 64` (the trailing zeros of the old word, not the
index of the allocated bit). -/
theorem alloc_one_zero_word_eval :
    allocOne 0 = (64, 0) ∧ allocOne 0 ≠ (0, 1) ∧ allocOne 6 = (1, 0) := by
  refine ⟨by decide, by decide, by decide⟩

/-- C10: `Bitmap::set_allocated 31` on the zero word sets bits 31–63 (the
shifted literal `1` is a 32-bit `int` that sign-extends when converted to the
64-bit word), not just bit 31 as the claim states; for `idx ≤ 30` the claim's
behaviour does hold. -/
theorem set_allocated_31_eval :
    set_allocated 0 31 = 2 ^ 64 - 2 ^ 31 ∧ set_allocated 0 31 ≠ 2 ^ 31 ∧
      set_allocated 0 30 = 2 ^ 30 := by
  refine ⟨by decide, by decide, by decide⟩

set_option maxRecDepth 8000

/-- C3: `TxLogBlock::try_commit` with `hint_tail = 0` on a block whose slots
`0 … 255` are occupied and whose slots `256 … 510` are free returns `-1`,
although the block is not full: the loop bound is `NUM_LOG_ENTRY = 256`
instead of the array size `NUM_TX_ENTRY = 511`, so the last 255 slots are
never scanned. -/
theorem try_commit_misses_free_slots_eval :
    (try_commit c3Entries 5 0).1 = -1 ∧ c3Entries 256 = 0 ∧
      256 < NUM_TX_ENTRY ∧ NUM_LOG_ENTRY = 256 ∧ NUM_TX_ENTRY = 511 := by
  refine ⟨by decide, by decide, by decide, by decide, by decide⟩

/-- C8: the public `write` entry point of the shim dispatches to the host's
`posix::write`, not to the transaction manager's `do_write` (and likewise for
`read`). -/
theorem lib_write_read_bypass_tx_eval :
    libWrite 3 5 = IOCall.posixWrite 3 5 ∧
      libWrite 3 5 ≠ IOCall.txDoWrite 3 5 ∧
      libRead 3 5 = IOCall.posixRead 3 5 ∧
      libRead 3 5 ≠ IOCall.txDoRead 3 5 := by
  refine ⟨rfl, by decide, rfl, by decide⟩

/-- C2: in every execution of `File::overwrite`, the persist-with-fence of
the payload precedes the store of the commit entry: whenever the trace has
`commitTx` at position `i`, some earlier position `j < i` holds
`persistFence`. -/
theorem persist_fence_before_commit (localOffset i : Nat)
    (h : (overwriteTrace localOffset)[i]? = some Ev.commitTx) :
    ∃ j < i, (overwriteTrace localOffset)[j]? = some Ev.persistFence := by
  have hi : i < (overwriteTrace localOffset).length :=
    (List.getElem?_eq_some.mp h).1
  by_cases hlo : localOffset ≠ 0
  · simp only [overwriteTrace, if_pos hlo] at h hi ⊢
    simp only [List.length_append, List.length_cons, List.length_nil] at hi
    interval_cases i <;>
      first
        | exact ⟨4, by omega, by decide⟩
        | exact absurd h (by decide)
  · simp only [overwriteTrace, if_neg hlo] at h hi ⊢
    simp only [List.length_append, List.length_cons, List.length_nil] at hi
    interval_cases i <;>
      first
        | exact ⟨3, by omega, by decide⟩
        | exact absurd h (by decide)

/-- Witness for `persist_fence_before_commit` at `localOffset = 0`, where the
commit entry store is the trace element at position 5. -/
theorem persist_fence_before_commit_witness :
    (overwriteTrace 0)[5]? = some Ev.commitTx ∧
      ∃ j < 5, (overwriteTrace 0)[j]? = some Ev.persistFence :=
  ⟨by decide, persist_fence_before_commit 0 5 (by decide)⟩

/-! ### Theorems for claim C7 -/

/-- C7, counterexample at `file_size = 0`: with `grow_unit_size = 2 ^ 21` and
`prealloc_size = 2 ^ 23` (an admissible configuration: the spec lists the two
as independent values), `init` ftruncates the file to `prealloc_size`, which
is not the next multiple of `grow_unit_size` above 0. -/
theorem memtable_init_zero_counterexample :
    MemTable.init ⟨21, 2 ^ 23⟩ 0 = Except.ok (some (2 ^ 23), 2 ^ 23) ∧
      (2 ^ 23 : Nat) ≠ (0 / 2 ^ 21 + 1) * 2 ^ 21 := by
  exact ⟨rfl, by decide⟩

/-- C7 as amended: `init` fails for every non-block-aligned `file_size`; for
`file_size = 0` it ftruncates to `prealloc_size`; for a block-aligned nonzero
`file_size` that is not grow-unit aligned it ftruncates to the next multiple
of `grow_unit_size` (the least multiple exceeding `file_size`); and for a
grow-unit-aligned nonzero size no ftruncate is issued. -/
theorem memtable_init_growth (p : LayoutParams) (fs : Nat) :
    (¬ fs % BLOCK_SIZE = 0 →
      MemTable.init p fs =
        Except.error "Invalid layout: non-block-aligned file size!") ∧
    (fs % BLOCK_SIZE = 0 → fs = 0 →
      MemTable.init p fs = Except.ok (some p.prealloc_size, p.prealloc_size)) ∧
    (fs % BLOCK_SIZE = 0 → fs ≠ 0 → ¬ fs % 2 ^ p.grow_unit_shift = 0 →
      MemTable.init p fs =
        Except.ok
          (some ((fs / 2 ^ p.grow_unit_shift + 1) * 2 ^ p.grow_unit_shift),
            (fs / 2 ^ p.grow_unit_shift + 1) * 2 ^ p.grow_unit_shift) ∧
      (fs / 2 ^ p.grow_unit_shift + 1) * 2 ^ p.grow_unit_shift %
          2 ^ p.grow_unit_shift = 0 ∧
      fs < (fs / 2 ^ p.grow_unit_shift + 1) * 2 ^ p.grow_unit_shift ∧
      ∀ m, m % 2 ^ p.grow_unit_shift = 0 → fs < m →
        (fs / 2 ^ p.grow_unit_shift + 1) * 2 ^ p.grow_unit_shift ≤ m) ∧
    (fs % BLOCK_SIZE = 0 → fs ≠ 0 → fs % 2 ^ p.grow_unit_shift = 0 →
      MemTable.init p fs = Except.ok (none, fs)) := by
  have hgpos : 0 < 2 ^ p.grow_unit_shift := Nat.pos_pow_of_pos _ (by norm_num)
  refine ⟨?_, ?_, ?_, ?_⟩
  · intro h
    simp [MemTable.init, h]
  · intro hb h0
    subst h0
    simp [MemTable.init]
  · intro hb h0 hgal
    refine ⟨?_, ?_, ?_, ?_⟩
    · simp [MemTable.init, hb, h0, hgal, Nat.shiftRight_eq_div_pow,
        Nat.shiftLeft_eq]
    · exact Nat.mul_mod_left _ _
    · have := Nat.lt_div_mul_add (a := fs) hgpos
      calc fs < fs / 2 ^ p.grow_unit_shift * 2 ^ p.grow_unit_shift +
            2 ^ p.grow_unit_shift := this
        _ = (fs / 2 ^ p.grow_unit_shift + 1) * 2 ^ p.grow_unit_shift := by ring
    · intro m hm hfsm
      have hmk : m / 2 ^ p.grow_unit_shift * 2 ^ p.grow_unit_shift = m :=
        Nat.div_mul_cancel (Nat.dvd_of_mod_eq_zero hm)
      have hdivlt : fs / 2 ^ p.grow_unit_shift < m / 2 ^ p.grow_unit_shift := by
        rw [Nat.div_lt_iff_lt_mul hgpos]
        omega
      calc (fs / 2 ^ p.grow_unit_shift + 1) * 2 ^ p.grow_unit_shift
          ≤ m / 2 ^ p.grow_unit_shift * 2 ^ p.grow_unit_shift :=
            Nat.mul_le_mul_right _ (by omega)
        _ = m := hmk
  · intro hb h0 hgal
    simp [MemTable.init, hb, h0, hgal]

/-- Witness for `memtable_init_growth` at `grow_unit_shift = 21`,
`prealloc_size = 2 ^ 23` and `file_size = 4096`: the file is grown to
`2 ^ 21`, the least grow-unit multiple above 4096. -/
theorem memtable_init_growth_witness :
    (4096 : Nat) % BLOCK_SIZE = 0 ∧ ¬ (4096 : Nat) % 2 ^ 21 = 0 ∧
      MemTable.init ⟨21, 2 ^ 23⟩ 4096 =
        Except.ok (some ((4096 / 2 ^ 21 + 1) * 2 ^ 21),
          (4096 / 2 ^ 21 + 1) * 2 ^ 21) :=
  ⟨by decide, by decide,
    ((memtable_init_growth ⟨21, 2 ^ 23⟩ 4096).2.2.1 (by decide) (by decide)
      (by decide)).1⟩

/-! ### Theorems for claims C1 and C6 -/

/-- C1: after the two non-overlapping writes `pwrite([7,7], 200)` and
`pwrite([9], 0)`, reading back 2 bytes at offset 200 yields `[0, 0]` — the
untouched content of the second write's fresh shadow block — instead of the
`[7, 7]` the claim promises.  `write_data` copies only the first
`local_offset` bytes of the old block into the shadow block and never the
bytes after the written range, so the second write discards the first
write's data within the shared virtual block.  (Before the second write the
read does return `[7, 7]`.) -/
theorem round_trip_fails_eval :
    File.pread c1Write2.1 2 200 = some [0, 0] ∧
      ([0, 0] : List Nat) ≠ [7, 7] ∧
      File.pread c1Write1.1 2 200 = some [7, 7] := by
  refine ⟨by decide, by decide, by decide⟩

/-- The virtual-to-logical table written by one `overwrite`, read back. -/
theorem overwrite_btable (st : FileState) (b : List Nat) (o v : Nat) :
    (File.overwrite st b o).1.btable v =
      if o / BLOCK_SIZE ≤ v ∧
          v < o / BLOCK_SIZE +
            (b.length + o % BLOCK_SIZE + BLOCK_SIZE - 1) / BLOCK_SIZE
      then st.nextFree + (v - o / BLOCK_SIZE)
      else st.btable v :=
  rfl

/-- `overwrite` never decreases the allocator cursor. -/
theorem overwrite_nextFree (st : FileState) (b : List Nat) (o : Nat) :
    st.nextFree ≤ (File.overwrite st b o).1.nextFree :=
  Nat.le_add_right _ _

/-- Folding `overwrite` over a list of operations: the table entry of `v` is
non-zero exactly when it was non-zero initially or some operation's block
range covers `v`; the allocator cursor stays positive. -/
theorem foldl_overwrite_btable (ops : List (List Nat × Nat)) :
    ∀ st : FileState, 1 ≤ st.nextFree →
      1 ≤ (ops.foldl (fun s op => (File.overwrite s op.1 op.2).1) st).nextFree ∧
      ∀ v, (ops.foldl (fun s op => (File.overwrite s op.1 op.2).1) st).btable v
            ≠ 0 ↔
          (st.btable v ≠ 0 ∨
            ∃ op ∈ ops,
              (opRange op).1 ≤ v ∧ v < (opRange op).1 + (opRange op).2) := by
  induction ops with
  | nil => simp
  | cons op rest ih =>
    intro st h1
    have hstep1 : 1 ≤ (File.overwrite st op.1 op.2).1.nextFree :=
      le_trans h1 (overwrite_nextFree st op.1 op.2)
    obtain ⟨hrec1, hrec2⟩ := ih (File.overwrite st op.1 op.2).1 hstep1
    refine ⟨by simpa using hrec1, fun v => ?_⟩
    have hfold :
        (op :: rest).foldl (fun s q => (File.overwrite s q.1 q.2).1) st =
          rest.foldl (fun s q => (File.overwrite s q.1 q.2).1)
            (File.overwrite st op.1 op.2).1 := by
      simp
    rw [hfold, hrec2 v]
    have hone : ((File.overwrite st op.1 op.2).1.btable v ≠ 0 ↔
        (st.btable v ≠ 0 ∨
          ((opRange op).1 ≤ v ∧ v < (opRange op).1 + (opRange op).2))) := by
      rw [overwrite_btable]
      unfold opRange
      by_cases hcov : op.2 / BLOCK_SIZE ≤ v ∧
          v < op.2 / BLOCK_SIZE +
            (op.1.length + op.2 % BLOCK_SIZE + BLOCK_SIZE - 1) / BLOCK_SIZE
      · simp only [if_pos hcov]
        constructor
        · intro _
          exact Or.inr hcov
        · intro _
          omega
      · simp only [if_neg hcov]
        constructor
        · intro h
          exact Or.inl h
        · intro h
          rcases h with h | h
          · exact h
          · exact absurd h hcov
    rw [hone]
    simp only [List.mem_cons]
    constructor
    · rintro ((h | h) | h)
      · exact Or.inl h
      · exact Or.inr ⟨op, Or.inl rfl, h⟩
      · rcases h with ⟨q, hq, hqc⟩
        exact Or.inr ⟨q, Or.inr hq, hqc⟩
    · rintro (h | ⟨q, hq | hq, hqc⟩)
      · exact Or.inl (Or.inl h)
      · subst hq
        exact Or.inl (Or.inr hqc)
      · exact Or.inr ⟨q, hq, hqc⟩

/-- If some block scanned by the `pread` loop has a zero table entry, the
loop fails (the `assert` of `get_data_block_ptr`). -/
theorem preadGo_none (st : FileState) (sV lo nB lr : Nat) :
    ∀ fuel i, (∃ k, i ≤ k ∧ k < i + fuel ∧ st.btable (sV + k) = 0) →
      preadGo st sV lo nB lr i fuel = none := by
  intro fuel
  induction fuel with
  | zero =>
    rintro i ⟨k, hk1, hk2, -⟩
    omega
  | succ n ih =>
    rintro i ⟨k, hk1, hk2, hk3⟩
    by_cases h : st.btable (sV + i) = 0
    · simp [preadGo, preadBlock, h]
    · have hki : k ≠ i := fun he => h (he ▸ hk3)
      have hrec := ih (i + 1) ⟨k, by omega, by omega, hk3⟩
      simp [preadGo, preadBlock, h, hrec]

/-- C6 as amended: `table[v]` is non-zero for exactly those `v` covered by
some committed transaction, and a `pread` whose block range touches a
virtual block not covered by any committed transaction fails the assertion
`logical_block_idx != 0` of `get_data_block_ptr` (modelled as `none`) rather
than returning zero bytes. -/
theorem blk_table_coverage (ops : List (List Nat × Nat)) (v count offset : Nat) :
    ((runOps ops).btable v ≠ 0 ↔ covered ops v) ∧
      ((∃ i, i < (count + offset % BLOCK_SIZE + BLOCK_SIZE - 1) / BLOCK_SIZE ∧
          ¬ covered ops (offset / BLOCK_SIZE + i)) →
        File.pread (runOps ops) count offset = none) := by
  have hmain := foldl_overwrite_btable ops initFileState (by decide)
  have hiff : ∀ w, (runOps ops).btable w ≠ 0 ↔ covered ops w := by
    intro w
    rw [runOps, (hmain.2 w)]
    unfold covered
    simp [initFileState]
  refine ⟨hiff v, ?_⟩
  rintro ⟨i, hilt, hicov⟩
  have hz : (runOps ops).btable (offset / BLOCK_SIZE + i) = 0 := by
    by_contra hnz
    exact hicov ((hiff _).mp hnz)
  exact preadGo_none (runOps ops) (offset / BLOCK_SIZE)
    (offset % BLOCK_SIZE)
    ((count + offset % BLOCK_SIZE + BLOCK_SIZE - 1) / BLOCK_SIZE)
    (((count + offset % BLOCK_SIZE + BLOCK_SIZE - 1) / BLOCK_SIZE) * BLOCK_SIZE
      - count - offset % BLOCK_SIZE)
    ((count + offset % BLOCK_SIZE + BLOCK_SIZE - 1) / BLOCK_SIZE)
    0 ⟨i, Nat.zero_le _, by omega, hz⟩

/-- Witness for `blk_table_coverage` on the fresh file: no block is covered,
`table[0] = 0`, and `pread(_, 1, 0)` fails the assertion. -/
theorem blk_table_coverage_witness :
    ¬ (runOps []).btable 0 ≠ 0 ∧ File.pread (runOps []) 1 0 = none :=
  ⟨fun h => absurd ((blk_table_coverage [] 0 1 0).1.mp h) (by simp [covered]),
    (blk_table_coverage [] 0 1 0).2 ⟨0, by decide, by simp [covered]⟩⟩

/-- C6, counterexample for the claim as stated: on a fresh file no virtual
block is covered, and `pread` of one byte at offset 0 fails the assertion
(`none`) instead of returning the zero byte `[0]`. -/
theorem pread_uncovered_counterexample :
    File.pread initFileState 1 0 = none ∧
      (none : Option (List Nat)) ≠ some [0] :=
  ⟨rfl, by decide⟩

/-! ### Lemmas on the free-list order and `lower_bound` -/

/-- `entLe` is transitive (in explicit form, for chaining). -/
theorem entLe_trans {a b c : FreeEnt} (h1 : entLe a b) (h2 : entLe b c) :
    entLe a c := by
  unfold entLe at *
  omega

/-- Comparison against the search key `(n, 0)` is comparison of counts. -/
theorem entLe_key_iff (n : Nat) (f : FreeEnt) : entLe (n, 0) f ↔ n ≤ f.1 := by
  unfold entLe
  omega

/-- `entLe` entails comparison of the counts. -/
theorem entLe_count_le {a b : FreeEnt} (h : entLe a b) : a.1 ≤ b.1 := by
  unfold entLe at h
  omega

/-- Shrinking an entry by `n < count` moves it down (or keeps it equal at
`n = 0`, up to the `uint32_t` reduction of the start index). -/
theorem entLe_shrink (e : FreeEnt) (n : Nat) (h : n < e.1) :
    entLe (e.1 - n, (e.2 + n) % 2 ^ 32) e := by
  unfold entLe
  rcases Nat.eq_zero_or_pos n with h0 | h0
  · subst h0
    right
    refine ⟨rfl, ?_⟩
    simpa using Nat.mod_le (e.2 + 0) (2 ^ 32)
  · left
    omega

/-- `lower_bound` never passes the end. -/
theorem lowerBoundIdx_le_length (key : FreeEnt) (l : List FreeEnt) :
    lowerBoundIdx key l ≤ l.length := by
  induction l with
  | nil => simp [lowerBoundIdx]
  | cons e rest ih =>
    by_cases h : entLe key e
    · simp [lowerBoundIdx, h]
    · simp only [lowerBoundIdx, if_neg h, List.length_cons]
      omega

/-- When no element reaches the key, `lower_bound` returns the end. -/
theorem lowerBoundIdx_eq_length (key : FreeEnt) (l : List FreeEnt)
    (h : ∀ f ∈ l, ¬ entLe key f) : lowerBoundIdx key l = l.length := by
  induction l with
  | nil => simp [lowerBoundIdx]
  | cons e rest ih =>
    have he : ¬ entLe key e := h e (List.mem_cons_self e rest)
    simp only [lowerBoundIdx, if_neg he, List.length_cons]
    have := ih fun f hf => h f (List.mem_cons_of_mem e hf)
    omega

/-- When some element reaches the key, `lower_bound` returns a proper
index. -/
theorem lowerBoundIdx_lt_length (key : FreeEnt) (l : List FreeEnt)
    (h : ∃ f ∈ l, entLe key f) : lowerBoundIdx key l < l.length := by
  induction l with
  | nil => simp at h
  | cons e rest ih =>
    by_cases he : entLe key e
    · simp [lowerBoundIdx, he]
    · obtain ⟨f, hf, hkf⟩ := h
      rcases List.mem_cons.mp hf with rfl | hf
      · exact absurd hkf he
      · simp only [lowerBoundIdx, if_neg he, List.length_cons]
        have := ih ⟨f, hf, hkf⟩
        omega

/-- The element found by `lower_bound` is not less than the key. -/
theorem lowerBoundIdx_get (key : FreeEnt) (l : List FreeEnt)
    (h : lowerBoundIdx key l < l.length) :
    entLe key (l.get ⟨lowerBoundIdx key l, h⟩) := by
  induction l with
  | nil => simp at h
  | cons e rest ih =>
    by_cases he : entLe key e
    · simp [lowerBoundIdx, he]
    · have hlt : lowerBoundIdx key rest < rest.length := by
        have := h
        simp only [lowerBoundIdx, if_neg he, List.length_cons] at this
        omega
      have := ih hlt
      simpa [lowerBoundIdx, if_neg he] using this

/-- On a sorted list, the element found by `lower_bound` is minimal among
the elements not less than the key. -/
theorem lowerBoundIdx_min (key : FreeEnt) (l : List FreeEnt)
    (hs : List.Sorted entLe l) (h : lowerBoundIdx key l < l.length) :
    ∀ f ∈ l, entLe key f →
      entLe (l.get ⟨lowerBoundIdx key l, h⟩) f := by
  induction l with
  | nil => simp at h
  | cons e rest ih =>
    by_cases he : entLe key e
    · intro f hf hkf
      rcases List.mem_cons.mp hf with rfl | hf
      · simpa [lowerBoundIdx, he] using (IsRefl.refl (r := entLe) f)
      · simpa [lowerBoundIdx, he] using List.rel_of_sorted_cons hs f hf
    · intro f hf hkf
      have hlt : lowerBoundIdx key rest < rest.length := by
        have := h
        simp only [lowerBoundIdx, if_neg he, List.length_cons] at this
        omega
      rcases List.mem_cons.mp hf with rfl | hf
      · exact absurd hkf he
      · have := ih hs.of_cons hlt f hf hkf
        simpa [lowerBoundIdx, if_neg he] using this

/-- A prefix-of-a-sorted-list glued to a later suffix is sorted. -/
theorem sorted_take_append_drop (l : List FreeEnt) (i j : Nat) (hij : i ≤ j)
    (hs : List.Sorted entLe l) :
    List.Sorted entLe (l.take i ++ l.drop j) := by
  refine List.pairwise_append.mpr
    ⟨List.Pairwise.sublist (List.take_sublist i l) hs,
      List.Pairwise.sublist (List.drop_sublist j l) hs, ?_⟩
  intro x hx y hy
  have hy' : y ∈ l.drop i := by
    have : l.drop j = (l.drop i).drop (j - i) := by
      rw [List.drop_drop]
      congr 1
      omega
    rw [this] at hy
    exact List.mem_of_mem_drop hy
  exact hs.rel_of_mem_take_of_mem_drop hx hy'

/-- Erasing an element of a sorted list keeps it sorted. -/
theorem sorted_eraseIdx (l : List FreeEnt) (i : Nat)
    (hs : List.Sorted entLe l) :
    List.Sorted entLe (l.eraseIdx i) := by
  rw [List.eraseIdx_eq_take_drop_succ]
  exact sorted_take_append_drop l i (i + 1) (by omega) hs

/-- Splitting a list at a valid index. -/
theorem take_get_drop (l : List FreeEnt) (pos : Nat) (h : pos < l.length) :
    l = l.take pos ++ (l.get ⟨pos, h⟩ :: l.drop (pos + 1)) := by
  conv_lhs => rw [← List.take_append_drop pos l]
  congr 1
  simp only [List.get_eq_getElem]
  exact List.drop_eq_getElem_cons h

/-- `take (pos + 1)` after setting index `pos`. -/
theorem set_take_succ (l : List FreeEnt) (pos : Nat) (h : pos < l.length)
    (e' : FreeEnt) : (l.set pos e').take (pos + 1) = l.take pos ++ [e'] := by
  rw [List.set_eq_take_cons_drop e' h]
  have hlen : (l.take pos).length = pos := by
    rw [List.length_take]
    omega
  calc (l.take pos ++ e' :: l.drop (pos + 1)).take (pos + 1)
      = (l.take pos ++ e' :: l.drop (pos + 1)).take ((l.take pos).length + 1) := by
        rw [hlen]
    _ = l.take pos ++ (e' :: l.drop (pos + 1)).take 1 := List.take_append 1
    _ = l.take pos ++ [e'] := by simp

/-- `drop (pos + 1)` after setting index `pos`. -/
theorem set_drop_succ (l : List FreeEnt) (pos : Nat) (h : pos < l.length)
    (e' : FreeEnt) : (l.set pos e').drop (pos + 1) = l.drop (pos + 1) := by
  rw [List.set_eq_take_cons_drop e' h]
  have hlen : (l.take pos).length = pos := by
    rw [List.length_take]
    omega
  calc (l.take pos ++ e' :: l.drop (pos + 1)).drop (pos + 1)
      = (l.take pos ++ e' :: l.drop (pos + 1)).drop ((l.take pos).length + 1) := by
        rw [hlen]
    _ = (e' :: l.drop (pos + 1)).drop 1 := List.drop_append 1
    _ = l.drop (pos + 1) := rfl

/-- Replacing the entry at `pos` of a sorted list by a smaller-or-equal one
and re-sorting the prefix `[0, pos]` leaves the whole list sorted (the
suffix is untouched). -/
theorem sorted_shrink (l : List FreeEnt) (pos : Nat) (h : pos < l.length)
    (e' : FreeEnt) (he' : entLe e' (l.get ⟨pos, h⟩))
    (hs : List.Sorted entLe l) :
    List.Sorted entLe (shrinkResult l pos e') := by
  unfold shrinkResult
  rw [set_take_succ l pos h e', set_drop_succ l pos h e']
  refine List.pairwise_append.mpr
    ⟨List.sorted_insertionSort entLe _,
      List.Pairwise.sublist (List.drop_sublist (pos + 1) l) hs, ?_⟩
  intro x hx y hy
  have hx' : x ∈ l.take pos ++ [e'] :=
    (List.perm_insertionSort entLe _).mem_iff.mp hx
  have hdropPos : l.drop pos = l.get ⟨pos, h⟩ :: l.drop (pos + 1) := by
    simp only [List.get_eq_getElem]
    exact List.drop_eq_getElem_cons h
  have hey : entLe (l.get ⟨pos, h⟩) y := by
    have hsd : List.Sorted entLe (l.drop pos) :=
      List.Pairwise.sublist (List.drop_sublist pos l) hs
    rw [hdropPos] at hsd
    exact List.rel_of_sorted_cons hsd y hy
  rcases List.mem_append.mp hx' with hxA | hxe
  · have hy' : y ∈ l.drop pos := by
      rw [hdropPos]
      exact List.mem_cons_of_mem _ hy
    exact hs.rel_of_mem_take_of_mem_drop hxA hy'
  · have hxe' : x = e' := by simpa using hxe
    subst hxe'
    exact entLe_trans he' hey

/-- The element at `pos` plus the list with index `pos` erased form a
permutation of the original list. -/
theorem erase_perm (l : List FreeEnt) (pos : Nat) (h : pos < l.length) :
    List.Perm l (l.get ⟨pos, h⟩ :: l.eraseIdx pos) := by
  rw [List.eraseIdx_eq_take_drop_succ]
  conv_lhs => rw [take_get_drop l pos h]
  exact List.perm_middle

/-- The shrink-and-resort step permutes the old list with the entry at `pos`
swapped for the shrunk entry `e'`. -/
theorem shrink_perm (l : List FreeEnt) (pos : Nat) (h : pos < l.length)
    (e' : FreeEnt) :
    List.Perm (e' :: l) (l.get ⟨pos, h⟩ :: shrinkResult l pos e') := by
  unfold shrinkResult
  rw [set_take_succ l pos h e', set_drop_succ l pos h e']
  have hR : List.Perm
      (List.insertionSort entLe (l.take pos ++ [e']) ++ l.drop (pos + 1))
      (e' :: (l.take pos ++ l.drop (pos + 1))) := by
    refine ((List.perm_insertionSort entLe _).append_right _).trans ?_
    rw [List.append_assoc]
    exact List.perm_middle
  have hL : List.Perm (e' :: l)
      (l.get ⟨pos, h⟩ :: e' :: (l.take pos ++ l.drop (pos + 1))) := by
    conv_lhs => rw [take_get_drop l pos h]
    exact (List.Perm.cons e' List.perm_middle).trans
      (List.Perm.swap (l.get ⟨pos, h⟩) e' _)
  exact hL.trans (List.Perm.cons _ hR.symm)

/-- The bitmap path of `alloc` always hands back a sorted free list when the
incoming one is sorted. -/
theorem allocFromBitmap_sorted (st : AllocState) (n r : Nat)
    (st' : AllocState) (hs : List.Sorted entLe st.free_list)
    (h : allocFromBitmap st n = some (r, st')) :
    List.Sorted entLe st'.free_list := by
  unfold allocFromBitmap at h
  cases hm : alloc_batch st.bitmap st.recent_bitmap_idx with
  | none =>
    rw [hm] at h
    cases h
  | some p =>
    obtain ⟨lidx, bm'⟩ := p
    rw [hm] at h
    simp only [Option.some.injEq, Prod.mk.injEq] at h
    obtain ⟨-, hst⟩ := h
    rw [← hst]
    by_cases hcap : n < BITMAP_CAPACITY
    · simp only [if_pos hcap]
      exact List.sorted_insertionSort entLe _
    · simpa [if_neg hcap] using hs

/-! ### Theorems for claims C5 and C9 -/

/-- Computation of `alloc` when `lower_bound` hits an exactly matching
entry. -/
theorem alloc_eq_exact (st : AllocState) (n : Nat)
    (hpos : lowerBoundIdx (n, 0) st.free_list < st.free_list.length)
    (heq : (st.free_list.get ⟨lowerBoundIdx (n, 0) st.free_list, hpos⟩).1 = n) :
    Allocator.alloc st n =
      some ((st.free_list.get ⟨lowerBoundIdx (n, 0) st.free_list, hpos⟩).2,
        { st with free_list :=
            st.free_list.eraseIdx (lowerBoundIdx (n, 0) st.free_list) }) := by
  simp only [Allocator.alloc]
  rw [dif_pos hpos, if_pos heq]

/-- Computation of `alloc` when `lower_bound` hits a strictly larger
entry. -/
theorem alloc_eq_shrink (st : AllocState) (n : Nat)
    (hpos : lowerBoundIdx (n, 0) st.free_list < st.free_list.length)
    (hlt : n < (st.free_list.get ⟨lowerBoundIdx (n, 0) st.free_list, hpos⟩).1) :
    Allocator.alloc st n =
      some ((st.free_list.get ⟨lowerBoundIdx (n, 0) st.free_list, hpos⟩).2,
        { st with free_list :=
            (shrinkResult st.free_list (lowerBoundIdx (n, 0) st.free_list)
              ((st.free_list.get ⟨lowerBoundIdx (n, 0) st.free_list, hpos⟩).1 - n,
                ((st.free_list.get ⟨lowerBoundIdx (n, 0) st.free_list, hpos⟩).2 + n)
                  % 2 ^ 32)) }) := by
  simp only [Allocator.alloc, shrinkResult]
  rw [dif_pos hpos, if_neg (by omega), if_pos hlt]

/-- Computation of `alloc` when the free list has no entry with a
sufficient count. -/
theorem alloc_eq_miss (st : AllocState) (n lidx : Nat) (bm' : List Nat)
    (hmiss : ∀ f ∈ st.free_list, f.1 < n)
    (hbatch : alloc_batch st.bitmap st.recent_bitmap_idx = some (lidx, bm')) :
    Allocator.alloc st n =
      some (lidx,
        { free_list :=
            if n < BITMAP_CAPACITY then
              List.insertionSort entLe
                (st.free_list ++ [(BITMAP_CAPACITY - n, (lidx + n) % 2 ^ 32)])
            else st.free_list,
          bitmap := bm', recent_bitmap_idx := lidx + 1 }) := by
  have hend : lowerBoundIdx (n, 0) st.free_list = st.free_list.length :=
    lowerBoundIdx_eq_length _ _ fun f hf hkey => by
      have h1 := (entLe_key_iff n f).mp hkey
      have h2 := hmiss f hf
      omega
  simp only [Allocator.alloc, allocFromBitmap]
  rw [dif_neg (by omega), hbatch]

/-- C9: starting from a sorted free list, each of the three free-list
mutators of the allocator — `alloc(n)`, `free(lidx, n)` and
`free(image, size)` — leaves the free list sorted. -/
theorem free_list_sorted_invariant (st : AllocState) (n b : Nat)
    (image : List Nat) (hs : List.Sorted entLe st.free_list) :
    (∀ r st', Allocator.alloc st n = some (r, st') →
      List.Sorted entLe st'.free_list) ∧
    List.Sorted entLe (Allocator.free st b n).free_list ∧
    List.Sorted entLe (Allocator.freeImage st image).free_list := by
  refine ⟨?_, ?_, ?_⟩
  · intro r st' halloc
    simp only [Allocator.alloc] at halloc
    by_cases hpos : lowerBoundIdx (n, 0) st.free_list < st.free_list.length
    · rw [dif_pos hpos] at halloc
      by_cases heq :
          (st.free_list.get ⟨lowerBoundIdx (n, 0) st.free_list, hpos⟩).1 = n
      · rw [if_pos heq] at halloc
        simp only [Option.some.injEq, Prod.mk.injEq] at halloc
        obtain ⟨-, hst⟩ := halloc
        rw [← hst]
        exact sorted_eraseIdx _ _ hs
      · rw [if_neg heq] at halloc
        by_cases hlt :
            n < (st.free_list.get ⟨lowerBoundIdx (n, 0) st.free_list, hpos⟩).1
        · rw [if_pos hlt] at halloc
          simp only [Option.some.injEq, Prod.mk.injEq] at halloc
          obtain ⟨-, hst⟩ := halloc
          rw [← hst]
          exact sorted_shrink _ _ hpos _ (entLe_shrink _ n hlt) hs
        · rw [if_neg hlt] at halloc
          exact allocFromBitmap_sorted st n r st' hs halloc
    · rw [dif_neg hpos] at halloc
      exact allocFromBitmap_sorted st n r st' hs halloc
  · unfold Allocator.free
    by_cases hb : b = 0
    · simpa [hb] using hs
    · simp only [if_neg hb]
      exact List.sorted_insertionSort entLe _
  · unfold Allocator.freeImage
    by_cases him : image.length = 0
    · simpa [him] using hs
    · simp only [if_neg him]
      exact List.sorted_insertionSort entLe _

/-- Witness for `free_list_sorted_invariant` on a concrete sorted state. -/
theorem free_list_sorted_invariant_witness :
    List.Sorted entLe c9State.free_list ∧
      (∀ r st', Allocator.alloc c9State 1 = some (r, st') →
        List.Sorted entLe st'.free_list) ∧
      List.Sorted entLe (Allocator.free c9State 7 1).free_list ∧
      List.Sorted entLe (Allocator.freeImage c9State [4, 5, 0, 9]).free_list :=
  ⟨by decide,
    (free_list_sorted_invariant c9State 1 7 [4, 5, 0, 9] (by decide)).1,
    (free_list_sorted_invariant c9State 1 7 [4, 5, 0, 9] (by decide)).2.1,
    (free_list_sorted_invariant c9State 1 7 [4, 5, 0, 9] (by decide)).2.2⟩

/-- C5, counterexample for the claim as stated at `n = BITMAP_CAPACITY`:
with an empty free list, `alloc(64)` claims the fresh run `[64, 128)` from
the bitmap but pushes nothing onto the free list, whereas the claim says
the remainder `(BITMAP_CAPACITY − n, lidx + n) = (0, 128)` is pushed. -/
theorem alloc_full_batch_counterexample :
    Allocator.alloc c5State 64 =
      some (64,
        { free_list := [], bitmap := [BITMAP_ALL_USED, BITMAP_ALL_USED],
          recent_bitmap_idx := 65 }) ∧
      ([] : List FreeEnt) ≠ [(0, 128)] :=
  ⟨rfl, by decide⟩

/-- C5 as amended: for `n ≤ BITMAP_CAPACITY` on a sorted free list,
`alloc(n)` returns the start of the entry with the smallest count `≥ n` when
one exists — erasing it on an exact match, else shrinking it in place to
`(count − n, start + n)` and re-sorting — and otherwise claims a fresh
64-block run from the persistent bitmap starting at `recent_bitmap_idx`,
pushes the remainder `(BITMAP_CAPACITY − n, lidx + n)` when
`n < BITMAP_CAPACITY` (nothing at `n = BITMAP_CAPACITY`), advances
`recent_bitmap_idx`, and returns the run's first index. -/
theorem alloc_spec (st : AllocState) (n : Nat)
    (hs : List.Sorted entLe st.free_list) (_hn : n ≤ BITMAP_CAPACITY) :
    ((∃ f ∈ st.free_list, n ≤ f.1) →
      ∃ e ∈ st.free_list, n ≤ e.1 ∧
        (∀ f ∈ st.free_list, n ≤ f.1 → e.1 ≤ f.1) ∧
        ∃ st', Allocator.alloc st n = some (e.2, st') ∧
          st'.bitmap = st.bitmap ∧
          st'.recent_bitmap_idx = st.recent_bitmap_idx ∧
          List.Sorted entLe st'.free_list ∧
          ((e.1 = n ∧ List.Perm st.free_list (e :: st'.free_list)) ∨
            (n < e.1 ∧
              List.Perm ((e.1 - n, (e.2 + n) % 2 ^ 32) :: st.free_list)
                (e :: st'.free_list)))) ∧
    ((∀ f ∈ st.free_list, f.1 < n) →
      ∀ lidx bm',
        alloc_batch st.bitmap st.recent_bitmap_idx = some (lidx, bm') →
        ∃ st', Allocator.alloc st n = some (lidx, st') ∧
          st'.bitmap = bm' ∧ st'.recent_bitmap_idx = lidx + 1 ∧
          List.Sorted entLe st'.free_list ∧
          List.Perm st'.free_list
            (st.free_list ++
              if n < BITMAP_CAPACITY then
                [(BITMAP_CAPACITY - n, (lidx + n) % 2 ^ 32)]
              else [])) := by
  constructor
  · rintro ⟨f0, hf0, hnf0⟩
    have hpos := lowerBoundIdx_lt_length (n, 0) st.free_list
      ⟨f0, hf0, (entLe_key_iff n f0).mpr hnf0⟩
    have hne : n ≤ (st.free_list.get
        ⟨lowerBoundIdx (n, 0) st.free_list, hpos⟩).1 :=
      (entLe_key_iff n _).mp (lowerBoundIdx_get _ _ hpos)
    refine ⟨st.free_list.get ⟨lowerBoundIdx (n, 0) st.free_list, hpos⟩,
      List.get_mem _ _ _, hne, ?_, ?_⟩
    · intro f hf hnf
      exact entLe_count_le
        (lowerBoundIdx_min (n, 0) st.free_list hs hpos f hf
          ((entLe_key_iff n f).mpr hnf))
    · rcases Nat.eq_or_lt_of_le hne with heq | hlt
      · refine ⟨{ st with free_list :=
            st.free_list.eraseIdx (lowerBoundIdx (n, 0) st.free_list) },
          alloc_eq_exact st n hpos heq.symm, rfl, rfl,
          sorted_eraseIdx _ _ hs, Or.inl ⟨heq.symm, ?_⟩⟩
        exact erase_perm st.free_list _ hpos
      · refine ⟨_, alloc_eq_shrink st n hpos hlt, rfl, rfl,
          sorted_shrink _ _ hpos _ (entLe_shrink _ n hlt) hs,
          Or.inr ⟨hlt, ?_⟩⟩
        exact shrink_perm st.free_list _ hpos _
  · intro hmiss lidx bm' hbatch
    refine ⟨_, alloc_eq_miss st n lidx bm' hmiss hbatch, rfl, rfl, ?_, ?_⟩
    · by_cases hcap : n < BITMAP_CAPACITY
      · simp only [if_pos hcap]
        exact List.sorted_insertionSort entLe _
      · simpa [if_neg hcap] using hs
    · by_cases hcap : n < BITMAP_CAPACITY
      · simp only [if_pos hcap]
        exact List.perm_insertionSort entLe _
      · simp [if_neg hcap]

/-- Witness for `alloc_spec`: on the sorted free list `[(2, 5), (9, 20)]`,
`alloc(1)` (hit case) and, on an all-too-small free list with a free bitmap
word, `alloc(64)` (miss case). -/
theorem alloc_spec_witness :
    (∃ e ∈ c9State.free_list, 1 ≤ e.1 ∧
      (∀ f ∈ c9State.free_list, 1 ≤ f.1 → e.1 ≤ f.1) ∧
      ∃ st', Allocator.alloc c9State 1 = some (e.2, st') ∧
        st'.bitmap = c9State.bitmap ∧
        st'.recent_bitmap_idx = c9State.recent_bitmap_idx ∧
        List.Sorted entLe st'.free_list ∧
        ((e.1 = 1 ∧ List.Perm c9State.free_list (e :: st'.free_list)) ∨
          (1 < e.1 ∧
            List.Perm ((e.1 - 1, (e.2 + 1) % 2 ^ 32) :: c9State.free_list)
              (e :: st'.free_list)))) ∧
    (∃ st', Allocator.alloc c5State 64 = some (64, st') ∧
      st'.bitmap = [BITMAP_ALL_USED, BITMAP_ALL_USED] ∧
      st'.recent_bitmap_idx = 64 + 1 ∧
      List.Sorted entLe st'.free_list ∧
      List.Perm st'.free_list
        (c5State.free_list ++
          if 64 < BITMAP_CAPACITY then
            [(BITMAP_CAPACITY - 64, (64 + 64) % 2 ^ 32)]
          else [])) :=
  ⟨(alloc_spec c9State 1 (by decide) (by decide)).1
      ⟨(2, 5), by decide, by decide⟩,
    (alloc_spec c5State 64 (by decide) (by decide)).2
      (by decide) 64 [BITMAP_ALL_USED, BITMAP_ALL_USED] (by decide)⟩

end MadFS
